import Mathlib

/-!
Verification of the structure-tree construction and offset-correlation engine of
pytai (`src/pytai/application.py`, `Application._populate_structure_tree` and the
surrounding callbacks).

The decoded value graph handed over by the per-format decoder is modelled as the
inductive type `Value`: each value carries a display description
(`parser.get_item_description`), the positional elements the engine iterates when
a frame is flagged `is_array` (each exposing `value`, `start_offset`,
`end_offset`, as the Python code accesses them on `arr_attr`), and the result of
`parser.get_children` — either a list of child attribute tuples or a
domain-specific decoding error (`PyTaiException`), since the source wraps the
whole construction loop in `try ... except PyTaiException`.

Offsets are `Option Nat`: `none` is Python's `None`.  The Python comparison
`node_attr.start_offset != 0` is true for `None`, hence it is translated as
`ps ≠ some 0`; `child_attr.start_offset == 0` becomes `= some 0`.

The view collaborator assigns one opaque handle per `add_tree_item` call,
parent-before-child; handles are modelled as the running count of created items,
so the handle of the k-th processed frame of one pass started at base `n` is
`n + k`.  The trace of processed frames (in BFS order) is the constructed tree;
the record the view stores for an item is the projection of the frame onto the
`add_tree_item` arguments (parent, name, description, start/end offset,
is_metavar).

The `while queue:` loop is modelled with an explicit fuel argument; fuel
`queueWeight q` (the summed sizes of the queued subgraphs) is proved sufficient
(`runBFSF_stable`, `queueWeight_step_lt`): every dequeue removes a frame of
weight `1 + valueSize v` and enqueues children of total weight at most
`valueSize v`, so the loop finishes within that many iterations and the fuel
branch is dead for the saturated entry point `buildTree`.
-/

namespace Pytai

mutual

inductive Value : Type where
  | mk : String → List ArrElem → ChildrenResult → Value

inductive ArrElem : Type where
  | mk : Value → Option Nat → Option Nat → ArrElem

inductive ChildrenResult : Type where
  | ok : List ChildAttr → ChildrenResult
  | err : String → ChildrenResult

inductive ChildAttr : Type where
  | mk : String → Value → Option Nat → Option Nat → Bool → Bool → ChildAttr

end

def Value.descr : Value → String
  | .mk d _ _ => d

def Value.arrElems : Value → List ArrElem
  | .mk _ es _ => es

def Value.children : Value → ChildrenResult
  | .mk _ _ cs => cs

def ArrElem.value : ArrElem → Value
  | .mk v _ _ => v

def ArrElem.start_offset : ArrElem → Option Nat
  | .mk _ s _ => s

def ArrElem.end_offset : ArrElem → Option Nat
  | .mk _ _ e => e

def ChildAttr.name : ChildAttr → String
  | .mk nm _ _ _ _ _ => nm

def ChildAttr.value : ChildAttr → Value
  | .mk _ v _ _ _ _ => v

def ChildAttr.start_offset : ChildAttr → Option Nat
  | .mk _ _ s _ _ _ => s

def ChildAttr.end_offset : ChildAttr → Option Nat
  | .mk _ _ _ e _ _ => e

def ChildAttr.is_metavar : ChildAttr → Bool
  | .mk _ _ _ _ m _ => m

def ChildAttr.is_array : ChildAttr → Bool
  | .mk _ _ _ _ _ a => a

mutual

def valueSize : Value → Nat
  | .mk _ es cs => 1 + arrElemsSize es + childrenResultSize cs

def arrElemSize : ArrElem → Nat
  | .mk v _ _ => 1 + valueSize v

def arrElemsSize : List ArrElem → Nat
  | [] => 0
  | e :: es => arrElemSize e + arrElemsSize es

def childrenResultSize : ChildrenResult → Nat
  | .ok cs => childAttrsSize cs
  | .err _ => 0

def childAttrSize : ChildAttr → Nat
  | .mk _ v _ _ _ _ => 1 + valueSize v

def childAttrsSize : List ChildAttr → Nat
  | [] => 0
  | c :: cs => childAttrSize c + childAttrsSize cs

end

/-- One entry of the BFS work queue: the `NodeAttributes` namedtuple of
`_populate_structure_tree` (fields in source order). -/
structure NodeAttributes : Type where
  parent : Option Nat
  name : String
  value : Value
  start_offset : Option Nat
  end_offset : Option Nat
  is_metavar : Bool
  is_array : Bool
  invalidate_offsets : Bool

/-- The flag update of the child loop: `if (node_attr.start_offset != 0 and
child_attr.start_offset == 0): invalidate_offsets = True`. -/
def childInvalid (ps : Option Nat) (inv0 : Bool) (c : ChildAttr) : Bool :=
  if ps ≠ some 0 ∧ c.start_offset = some 0 then true else inv0

/-- The queue entry built for one named child (the `queue.append` of the
`else` branch). -/
def namedChildFrame (handle : Nat) (inv : Bool) (c : ChildAttr) : NodeAttributes :=
  { parent := some handle, name := c.name, value := c.value,
    start_offset := if inv then none else c.start_offset,
    end_offset := if inv then none else c.end_offset,
    is_metavar := c.is_metavar, is_array := c.is_array,
    invalidate_offsets := inv }

/-- The frames enqueued by the named-children loop, threading the mutable
local `invalidate_offsets` through the iteration. -/
def namedFrames (handle : Nat) (ps : Option Nat) : Bool → List ChildAttr → List NodeAttributes
  | _, [] => []
  | inv0, c :: cs =>
    let inv := childInvalid ps inv0 c
    namedChildFrame handle inv c :: namedFrames handle ps inv cs

/-- The queue entry built for one array element (the `queue.append` of the
`is_array` branch); `i` is the `enumerate` index, the name is the f-string
of the index in brackets. -/
def arrayElemFrame (handle : Nat) (inv : Bool) (i : Nat) (e : ArrElem) : NodeAttributes :=
  { parent := some handle, name := "[" ++ toString i ++ "]", value := e.value,
    start_offset := if inv then none else e.start_offset,
    end_offset := if inv then none else e.end_offset,
    is_metavar := false, is_array := false,
    invalidate_offsets := inv }

/-- The frames enqueued by the array branch (the flag is never updated there). -/
def arrayFrames (handle : Nat) (inv : Bool) : Nat → List ArrElem → List NodeAttributes
  | _, [] => []
  | i, e :: es => arrayElemFrame handle inv i e :: arrayFrames handle inv (i + 1) es

/-- One loop body after `add_tree_item`: the frames the dequeued frame `f`
(whose item received handle `handle`) appends to the queue, or the decoding
error raised by `parser.get_children`. -/
def childFrames (f : NodeAttributes) (handle : Nat) : Except String (List NodeAttributes) :=
  if f.is_array then .ok (arrayFrames handle f.invalidate_offsets 0 f.value.arrElems)
  else
    match f.value.children with
    | .err e => .error e
    | .ok cs => .ok (namedFrames handle f.start_offset f.invalidate_offsets cs)

/-- The enqueued frames of a dequeued frame, empty when enumeration raised. -/
def enqOf (f : NodeAttributes) (handle : Nat) : List NodeAttributes :=
  match childFrames f handle with
  | .error _ => []
  | .ok fr => fr

def frameWeight (f : NodeAttributes) : Nat := 1 + valueSize f.value

def queueWeight (q : List NodeAttributes) : Nat := (q.map frameWeight).sum

/-- The `while queue:` loop, with handle counter `n` and explicit fuel.  Each
iteration pops the front frame, records its `add_tree_item` call (the returned
trace, in order; handle of the k-th entry is `n + k`), and either aborts with
the decoding error raised during child enumeration — the already-added items
stand, as in the source, where the exception propagates out of the loop — or
appends the child frames and continues. -/
def runBFSF : Nat → Nat → List NodeAttributes → List NodeAttributes × Option String
  | _, _, [] => ([], none)
  | 0, _, _ :: _ => ([], none)
  | fuel + 1, n, f :: rest =>
    match childFrames f n with
    | .error e => ([f], some e)
    | .ok fr =>
      let r := runBFSF fuel (n + 1) (rest ++ fr)
      (f :: r.1, r.2)

/-- The seed frame: `NodeAttributes(parent = '', name = 'root', value =
parsed_file, start_offset = 0, end_offset = None, is_metavar = False,
is_array = False, invalidate_offsets = False)`; the empty-string parent
sentinel is `none`. -/
def rootFrame (v : Value) : NodeAttributes :=
  { parent := none, name := "root", value := v, start_offset := some 0,
    end_offset := none, is_metavar := false, is_array := false,
    invalidate_offsets := false }

def initQueue (v : Value) : List NodeAttributes := [rootFrame v]

/-- One construction pass over a parsed file: the trace of processed frames in
BFS order (the structure tree; item `k` has handle `k`) together with the
decoding error that aborted the pass, if any. -/
def buildTree (v : Value) : List NodeAttributes × Option String :=
  runBFSF (queueWeight (initQueue v)) 0 (initQueue v)

/-! ### Fuel adequacy

The fuel of `buildTree` is the summed weight of the seed queue; every loop
iteration strictly decreases the queue weight, so any fuel at least the queue
weight yields the same (complete) run. -/

theorem queueWeight_nil : queueWeight [] = 0 := rfl

theorem queueWeight_cons (f : NodeAttributes) (q : List NodeAttributes) :
    queueWeight (f :: q) = frameWeight f + queueWeight q := by
  simp [queueWeight]

theorem queueWeight_append (a b : List NodeAttributes) :
    queueWeight (a ++ b) = queueWeight a + queueWeight b := by
  simp [queueWeight]

theorem queueWeight_namedFrames (handle : Nat) (ps : Option Nat) (inv : Bool)
    (cs : List ChildAttr) :
    queueWeight (namedFrames handle ps inv cs) = childAttrsSize cs := by
  induction cs generalizing inv with
  | nil => rfl
  | cons c cs ih =>
    cases c with
    | mk nm v s e m a =>
      simp [namedFrames, queueWeight_cons, ih, frameWeight, namedChildFrame,
        childAttrsSize, childAttrSize, ChildAttr.value, valueSize]

theorem queueWeight_arrayFrames (handle : Nat) (inv : Bool) (i : Nat)
    (es : List ArrElem) :
    queueWeight (arrayFrames handle inv i es) = arrElemsSize es := by
  induction es generalizing i with
  | nil => rfl
  | cons e es ih =>
    cases e with
    | mk v s en =>
      simp [arrayFrames, queueWeight_cons, ih, frameWeight, arrayElemFrame,
        arrElemsSize, arrElemSize, ArrElem.value]

theorem queueWeight_childFrames (f : NodeAttributes) (handle : Nat)
    (fr : List NodeAttributes) (h : childFrames f handle = .ok fr) :
    queueWeight fr ≤ valueSize f.value := by
  cases hv : f.value with
  | mk d es cs =>
    by_cases ha : f.is_array = true
    · simp [childFrames, ha, hv] at h
      subst h
      simp [queueWeight_arrayFrames, Value.arrElems, hv, valueSize]
      omega
    · simp [childFrames, ha, hv] at h
      cases cs with
      | err e => simp [Value.children] at h
      | ok cl =>
        simp [Value.children] at h
        subst h
        simp [queueWeight_namedFrames, hv, valueSize, childrenResultSize]

theorem queueWeight_step_lt (f : NodeAttributes) (n : Nat)
    (rest fr : List NodeAttributes) (h : childFrames f n = .ok fr) :
    queueWeight (rest ++ fr) < queueWeight (f :: rest) := by
  have h1 := queueWeight_childFrames f n fr h
  simp [queueWeight_append, queueWeight_cons, frameWeight]
  omega

theorem runBFSF_stable (fuel : Nat) : ∀ (fuel' n : Nat) (q : List NodeAttributes),
    queueWeight q ≤ fuel → queueWeight q ≤ fuel' →
    runBFSF fuel n q = runBFSF fuel' n q := by
  induction fuel with
  | zero =>
    intro fuel' n q hq hq'
    cases q with
    | nil => cases fuel' <;> rfl
    | cons f rest =>
      exfalso
      have : 1 ≤ queueWeight (f :: rest) := by
        simp [queueWeight_cons, frameWeight]
        omega
      omega
  | succ fuel ih =>
    intro fuel' n q hq hq'
    cases q with
    | nil => cases fuel' <;> rfl
    | cons f rest =>
      have hge : 1 ≤ queueWeight (f :: rest) := by
        simp [queueWeight_cons, frameWeight]
        omega
      cases fuel' with
      | zero => omega
      | succ fuel' =>
        simp only [runBFSF]
        cases h : childFrames f n with
        | error e => rfl
        | ok fr =>
          have hlt := queueWeight_step_lt f n rest fr h
          have := ih fuel' (n + 1) (rest ++ fr) (by omega) (by omega)
          simp [this]

/-! ### Shape of the enqueued frames -/

theorem childInvalid_of_inv0 (ps : Option Nat) (inv0 : Bool) (c : ChildAttr)
    (h : inv0 = true) : childInvalid ps inv0 c = true := by
  unfold childInvalid
  split <;> simp [h]

theorem mem_namedFrames (handle : Nat) (ps : Option Nat) (inv0 : Bool)
    (cs : List ChildAttr) (g : NodeAttributes)
    (hg : g ∈ namedFrames handle ps inv0 cs) :
    ∃ c ∈ cs, ∃ b, g = namedChildFrame handle b c ∧ (inv0 = true → b = true) := by
  induction cs generalizing inv0 with
  | nil => simp [namedFrames] at hg
  | cons c cs ih =>
    simp only [namedFrames] at hg
    rcases List.mem_cons.mp hg with rfl | hg'
    · exact ⟨c, by simp, childInvalid ps inv0 c, rfl,
        fun h => childInvalid_of_inv0 ps inv0 c h⟩
    · rcases ih (childInvalid ps inv0 c) hg' with ⟨c', hc', b, hb, hinv⟩
      exact ⟨c', by simp [hc'], b, hb,
        fun h => hinv (childInvalid_of_inv0 ps inv0 c h)⟩

theorem mem_arrayFrames (handle : Nat) (inv : Bool) (i : Nat) (es : List ArrElem)
    (g : NodeAttributes) (hg : g ∈ arrayFrames handle inv i es) :
    ∃ e ∈ es, ∃ j, g = arrayElemFrame handle inv j e := by
  induction es generalizing i with
  | nil => simp [arrayFrames] at hg
  | cons e es ih =>
    simp only [arrayFrames] at hg
    rcases List.mem_cons.mp hg with rfl | hg'
    · exact ⟨e, by simp, i, rfl⟩
    · rcases ih (i + 1) hg' with ⟨e', he', j, hj⟩
      exact ⟨e', by simp [he'], j, hj⟩

theorem mem_enqOf (f : NodeAttributes) (handle : Nat) (g : NodeAttributes)
    (hg : g ∈ enqOf f handle) :
    g.parent = some handle ∧
    (f.invalidate_offsets = true → g.invalidate_offsets = true) ∧
    (g.invalidate_offsets = true → g.start_offset = none ∧ g.end_offset = none) := by
  unfold enqOf at hg
  cases h : childFrames f handle with
  | error e => rw [h] at hg; simp at hg
  | ok fr =>
    rw [h] at hg
    unfold childFrames at h
    by_cases ha : f.is_array = true
    · simp only [ha, if_true] at h
      cases h
      rcases mem_arrayFrames _ _ _ _ _ hg with ⟨e, _, j, rfl⟩
      refine ⟨rfl, fun hf => hf, fun hb => ?_⟩
      simp only [arrayElemFrame] at hb ⊢
      simp [hb]
    · simp only [ha, if_false, Bool.false_eq_true] at h
      cases hc : f.value.children with
      | err e => rw [hc] at h; cases h
      | ok cs =>
        rw [hc] at h
        cases h
        rcases mem_namedFrames _ _ _ _ _ hg with ⟨c, _, b, rfl, hb⟩
        refine ⟨rfl, fun hf => hb hf, fun hinv => ?_⟩
        simp only [namedChildFrame] at hinv ⊢
        simp [hinv]

/-! ### BFS master lemmas -/

/-- Any per-frame property that holds on the queue and is preserved from a
dequeued frame to the frames it enqueues holds on every processed frame. -/
theorem bfs_inv (P : NodeAttributes → Prop)
    (hP : ∀ f handle g, g ∈ enqOf f handle → P f → P g) :
    ∀ (fuel n : Nat) (q : List NodeAttributes), (∀ f ∈ q, P f) →
      ∀ g ∈ (runBFSF fuel n q).1, P g := by
  intro fuel
  induction fuel with
  | zero =>
    intro n q hq g hg
    cases q <;> simp [runBFSF] at hg
  | succ fuel ih =>
    intro n q hq g hg
    cases q with
    | nil => simp [runBFSF] at hg
    | cons f rest =>
      cases h : childFrames f n with
      | error e =>
        simp only [runBFSF, h] at hg
        simp at hg
        subst hg
        exact hq _ (by simp)
      | ok fr =>
        simp only [runBFSF, h] at hg
        rcases List.mem_cons.mp hg with rfl | hg'
        · exact hq g (by simp)
        · refine ih (n + 1) (rest ++ fr) ?_ g hg'
          intro f' hf'
          rcases List.mem_append.mp hf' with hf' | hf'
          · exact hq f' (by simp [hf'])
          · have he : enqOf f n = fr := by simp [enqOf, h]
            exact hP f n f' (by rw [he]; exact hf') (hq f (by simp))

/-- Parent handles always point strictly below the owner's handle: the k-th
frame processed by a run based at `n` has handle `n + k`, and its parent was
created earlier. -/
theorem bfs_parent_lt : ∀ (fuel n : Nat) (q : List NodeAttributes),
    (∀ f ∈ q, ∀ p, f.parent = some p → p < n) →
    ∀ (k : Nat) (g : NodeAttributes) (p : Nat),
      ((runBFSF fuel n q).1)[k]? = some g → g.parent = some p → p < n + k := by
  intro fuel
  induction fuel with
  | zero =>
    intro n q hq k g p hk hp
    cases q <;> simp [runBFSF] at hk
  | succ fuel ih =>
    intro n q hq k g p hk hp
    cases q with
    | nil => simp [runBFSF] at hk
    | cons f rest =>
      cases h : childFrames f n with
      | error e =>
        simp only [runBFSF, h] at hk
        cases k with
        | zero =>
          simp at hk
          subst hk
          have := hq _ (by simp) p hp
          omega
        | succ k => simp at hk
      | ok fr =>
        simp only [runBFSF, h] at hk
        cases k with
        | zero =>
          simp at hk
          subst hk
          have := hq _ (by simp) p hp
          omega
        | succ k =>
          simp only [List.getElem?_cons_succ] at hk
          have hq' : ∀ f' ∈ rest ++ fr, ∀ p', f'.parent = some p' → p' < n + 1 := by
            intro f' hf' p' hp'
            rcases List.mem_append.mp hf' with hf' | hf'
            · have := hq f' (by simp [hf']) p' hp'
              omega
            · have he : enqOf f n = fr := by simp [enqOf, h]
              have := (mem_enqOf f n f' (by rw [he]; exact hf')).1
              rw [this] at hp'
              cases hp'
              omega
          have := ih (n + 1) (rest ++ fr) hq' k g p hk hp
          omega

/-- Every processed frame either was in the initial queue or was enqueued
during the run, in which case its parent handle is at least the base. -/
theorem bfs_mem : ∀ (fuel n : Nat) (q : List NodeAttributes),
    ∀ g ∈ (runBFSF fuel n q).1, g ∈ q ∨ ∃ p, g.parent = some p ∧ n ≤ p := by
  intro fuel
  induction fuel with
  | zero =>
    intro n q g hg
    cases q <;> simp [runBFSF] at hg
  | succ fuel ih =>
    intro n q g hg
    cases q with
    | nil => simp [runBFSF] at hg
    | cons f rest =>
      cases h : childFrames f n with
      | error e =>
        simp only [runBFSF, h] at hg
        simp at hg
        subst hg
        exact Or.inl (by simp)
      | ok fr =>
        simp only [runBFSF, h] at hg
        rcases List.mem_cons.mp hg with rfl | hg'
        · exact Or.inl (by simp)
        · rcases ih (n + 1) (rest ++ fr) g hg' with hm | ⟨p, hp, hnp⟩
          · rcases List.mem_append.mp hm with hm | hm
            · exact Or.inl (by simp [hm])
            · have he : enqOf f n = fr := by simp [enqOf, h]
              have := (mem_enqOf f n g (by rw [he]; exact hm)).1
              exact Or.inr ⟨n, this, le_refl n⟩
          · exact Or.inr ⟨p, hp, by omega⟩

theorem parent_beq_false (f : NodeAttributes) (n m : Nat)
    (hf : ∀ p, f.parent = some p → p < n) (hm : n ≤ m) :
    (f.parent == some m) = false := by
  cases hp : f.parent with
  | none => rfl
  | some p =>
    have := hf p hp
    simp only [beq_eq_false_iff_ne, ne_eq, Option.some.injEq]
    omega

/-- The first `q.length` processed frames are the initial queue itself, in
order (FIFO: newly enqueued frames go behind all seeded ones). -/
theorem bfs_first : ∀ (fuel n : Nat) (q : List NodeAttributes) (k : Nat)
    (g : NodeAttributes), k < q.length → ((runBFSF fuel n q).1)[k]? = some g →
    q[k]? = some g := by
  intro fuel
  induction fuel with
  | zero =>
    intro n q k g hk hg
    cases q with
    | nil => simp at hk
    | cons f rest => simp [runBFSF] at hg
  | succ fuel ih =>
    intro n q k g hk hg
    cases q with
    | nil => simp at hk
    | cons f rest =>
      cases h : childFrames f n with
      | error e =>
        simp only [runBFSF, h] at hg
        cases k with
        | zero => simpa using hg
        | succ k => simp at hg
      | ok fr =>
        simp only [runBFSF, h] at hg
        cases k with
        | zero => simpa using hg
        | succ k =>
          simp only [List.getElem?_cons_succ] at hg ⊢
          have hk' : k < rest.length := by simpa using hk
          have := ih (n + 1) (rest ++ fr) k g (by simp; omega) hg
          rwa [List.getElem?_append_left hk'] at this

/-- Frames processed at positions at least `d` are either among the dropped
part of the queue or carry a parent handle at least `base`. -/
theorem bfs_drop_parent : ∀ (fuel n base : Nat) (q : List NodeAttributes) (d : Nat),
    base ≤ n →
    (∀ f ∈ q.drop d, ∃ p, f.parent = some p ∧ base ≤ p) →
    ∀ (k : Nat) (g : NodeAttributes), d ≤ k → ((runBFSF fuel n q).1)[k]? = some g →
      ∃ p, g.parent = some p ∧ base ≤ p := by
  intro fuel
  induction fuel with
  | zero =>
    intro n base q d hbase hq k g hd hg
    cases q <;> simp [runBFSF] at hg
  | succ fuel ih =>
    intro n base q d hbase hq k g hd hg
    cases q with
    | nil => simp [runBFSF] at hg
    | cons f rest =>
      have henq : ∀ g' ∈ enqOf f n, ∃ p, g'.parent = some p ∧ base ≤ p := by
        intro g' hg'
        exact ⟨n, (mem_enqOf f n g' hg').1, hbase⟩
      cases h : childFrames f n with
      | error e =>
        simp only [runBFSF, h] at hg
        cases k with
        | zero =>
          simp at hg
          subst hg
          have hd0 : d = 0 := by omega
          subst hd0
          exact hq _ (by simp)
        | succ k => simp at hg
      | ok fr =>
        have he : enqOf f n = fr := by simp [enqOf, h]
        simp only [runBFSF, h] at hg
        cases k with
        | zero =>
          simp at hg
          subst hg
          have hd0 : d = 0 := by omega
          subst hd0
          exact hq _ (by simp)
        | succ k =>
          simp only [List.getElem?_cons_succ] at hg
          cases d with
          | zero =>
            refine ih (n + 1) base (rest ++ fr) 0 (by omega) ?_ k g (by omega) hg
            intro f' hf'
            simp at hf'
            rcases hf' with hf' | hf'
            · exact hq f' (by simp [hf'])
            · exact henq f' (by rw [he]; exact hf')
          | succ d =>
            refine ih (n + 1) base (rest ++ fr) d (by omega) ?_ k g (by omega) hg
            intro f' hf'
            rw [List.drop_append_eq_append_drop] at hf'
            rcases List.mem_append.mp hf' with hf' | hf'
            · exact hq f' (by simpa using hf')
            · exact henq f' (by rw [he]; exact List.mem_of_mem_drop hf')

/-- Heredity of the invalidation flag along the parent relation of the trace:
a frame whose parent is the `j`-th processed frame was processed later, and
inherits `invalidate_offsets` from it. -/
theorem bfs_flag_hered : ∀ (fuel n : Nat) (q : List NodeAttributes),
    (∀ f ∈ q, ∀ p, f.parent = some p → p < n) →
    ∀ (k j : Nat) (g gj : NodeAttributes),
      ((runBFSF fuel n q).1)[k]? = some g →
      ((runBFSF fuel n q).1)[j]? = some gj →
      g.parent = some (n + j) →
      j < k ∧ (gj.invalidate_offsets = true → g.invalidate_offsets = true) := by
  intro fuel
  induction fuel with
  | zero =>
    intro n q hq k j g gj hk hj hp
    cases q <;> simp [runBFSF] at hk
  | succ fuel ih =>
    intro n q hq k j g gj hk hj hp
    cases q with
    | nil => simp [runBFSF] at hk
    | cons f rest =>
      cases h : childFrames f n with
      | error e =>
        simp only [runBFSF, h] at hk hj
        cases k with
        | zero =>
          simp at hk
          subst hk
          have := hq _ (by simp) (n + j) hp
          omega
        | succ k => simp at hk
      | ok fr =>
        have he : enqOf f n = fr := by simp [enqOf, h]
        have hq' : ∀ f' ∈ rest ++ fr, ∀ p', f'.parent = some p' → p' < n + 1 := by
          intro f' hf' p' hp'
          rcases List.mem_append.mp hf' with hf' | hf'
          · have := hq f' (by simp [hf']) p' hp'
            omega
          · have := (mem_enqOf f n f' (by rw [he]; exact hf')).1
            rw [this] at hp'
            cases hp'
            omega
        simp only [runBFSF, h] at hk hj
        cases k with
        | zero =>
          simp at hk
          subst hk
          have := hq _ (by simp) (n + j) hp
          omega
        | succ k =>
          simp only [List.getElem?_cons_succ] at hk
          cases j with
          | zero =>
            simp at hj
            subst hj
            refine ⟨by omega, fun hinv => ?_⟩
            have hmem : g ∈ (runBFSF fuel (n + 1) (rest ++ fr)).1 :=
              List.getElem?_mem hk
            rcases bfs_mem fuel (n + 1) (rest ++ fr) g hmem with hm | ⟨p, hpe, hnp⟩
            · rcases List.mem_append.mp hm with hm | hm
              · have := hq g (by simp [hm]) n (by simpa using hp)
                omega
              · exact (mem_enqOf f n g (by rw [he]; exact hm)).2.1 hinv
            · rw [hpe] at hp
              cases hp
              omega
          | succ j =>
            simp only [List.getElem?_cons_succ] at hj
            have harith : n + (j + 1) = (n + 1) + j := by omega
            rw [harith] at hp
            have := ih (n + 1) (rest ++ fr) hq' k j g gj hk hj hp
            exact ⟨by omega, this.2⟩

/-- A run never processes a frame satisfying `p` when no enqueued frame can
satisfy `p`: the processed `p`-frames form a prefix of the queued ones. -/
theorem bfs_filter_stable : ∀ (fuel n : Nat) (q : List NodeAttributes)
    (p : NodeAttributes → Bool),
    (∀ (f : NodeAttributes) (m : Nat), n ≤ m → ∀ g ∈ enqOf f m, p g = false) →
    ∃ t, ((runBFSF fuel n q).1).filter p ++ t = q.filter p := by
  intro fuel
  induction fuel with
  | zero =>
    intro n q p hp
    cases q with
    | nil => exact ⟨[], by simp [runBFSF]⟩
    | cons f rest => exact ⟨(f :: rest).filter p, by simp [runBFSF]⟩
  | succ fuel ih =>
    intro n q p hp
    cases q with
    | nil => exact ⟨[], by simp [runBFSF]⟩
    | cons f rest =>
      cases h : childFrames f n with
      | error e =>
        refine ⟨rest.filter p, ?_⟩
        simp only [runBFSF, h]
        simp [List.filter_cons]
        split <;> simp
      | ok fr =>
        have he : enqOf f n = fr := by simp [enqOf, h]
        have hfr : fr.filter p = [] := by
          refine List.filter_eq_nil_iff.mpr ?_
          intro g hg
          simp [hp f n (le_refl n) g (by rw [he]; exact hg)]
        rcases ih (n + 1) (rest ++ fr) p
          (fun f' m hm g hg => hp f' m (by omega) g hg) with ⟨t, ht⟩
        refine ⟨t, ?_⟩
        simp only [runBFSF, h]
        rw [List.filter_append, hfr, List.append_nil] at ht
        simp only [List.filter_cons]
        split
        · simpa [List.cons_append] using congrArg (List.cons f) ht
        · exact ht

/-- The processed children of the `j`-th processed frame are a prefix (cut
only by a later abort) of the frames that frame enqueued, in enqueue order. -/
theorem bfs_children_prefix : ∀ (fuel n : Nat) (q : List NodeAttributes),
    (∀ f ∈ q, ∀ p, f.parent = some p → p < n) →
    ∀ (j : Nat) (gj : NodeAttributes), ((runBFSF fuel n q).1)[j]? = some gj →
    ∃ t, ((runBFSF fuel n q).1).filter (fun g => g.parent == some (n + j)) ++ t
          = enqOf gj (n + j) := by
  intro fuel
  induction fuel with
  | zero =>
    intro n q hq j gj hj
    cases q <;> simp [runBFSF] at hj
  | succ fuel ih =>
    intro n q hq j gj hj
    cases q with
    | nil => simp [runBFSF] at hj
    | cons f rest =>
      cases h : childFrames f n with
      | error e =>
        simp only [runBFSF, h] at hj ⊢
        cases j with
        | zero =>
          simp at hj
          subst hj
          have hf : (f.parent == some (n + 0)) = false :=
            parent_beq_false f n (n + 0) (hq f (by simp)) (by omega)
          have hnp : ¬ f.parent = some n := by
            intro hc
            have := hq f (by simp) n hc
            omega
          refine ⟨[], ?_⟩
          simp [List.filter_cons, hf, enqOf, h, hnp]
        | succ j => simp at hj
      | ok fr =>
        have he : enqOf f n = fr := by simp [enqOf, h]
        have hq' : ∀ f' ∈ rest ++ fr, ∀ p', f'.parent = some p' → p' < n + 1 := by
          intro f' hf' p' hp'
          rcases List.mem_append.mp hf' with hf' | hf'
          · have := hq f' (by simp [hf']) p' hp'
            omega
          · have := (mem_enqOf f n f' (by rw [he]; exact hf')).1
            rw [this] at hp'
            cases hp'
            omega
        simp only [runBFSF, h, Nat.add_zero] at hj ⊢
        cases j with
        | zero =>
          simp at hj
          subst hj
          have hpf : (f.parent == some n) = false :=
            parent_beq_false f n n (hq f (by simp)) (le_refl n)
          have hside : ∀ (f' : NodeAttributes) (m : Nat), n + 1 ≤ m →
              ∀ g ∈ enqOf f' m, (fun g => g.parent == some n) g = false := by
            intro f' m hm g hg
            have hgp := (mem_enqOf f' m g hg).1
            simp only [hgp, beq_eq_false_iff_ne, ne_eq, Option.some.injEq]
            omega
          rcases bfs_filter_stable fuel (n + 1) (rest ++ fr)
            (fun g => g.parent == some n) hside with ⟨t, ht⟩
          refine ⟨t, ?_⟩
          rw [List.filter_append] at ht
          have hrest : rest.filter (fun g => g.parent == some n) = [] := by
            refine List.filter_eq_nil_iff.mpr ?_
            intro g hg
            simp [parent_beq_false g n n (hq g (by simp [hg])) (le_refl n)]
          have hfr : fr.filter (fun g => g.parent == some n) = fr := by
            refine List.filter_eq_self.mpr ?_
            intro g hg
            have := (mem_enqOf f n g (by rw [he]; exact hg)).1
            simp [this]
          rw [hrest, hfr, List.nil_append] at ht
          simp only [Nat.add_zero, List.filter_cons, hpf, Bool.false_eq_true, if_false]
          rw [he]
          exact ht
        | succ j =>
          simp only [List.getElem?_cons_succ] at hj
          have harith : n + (j + 1) = (n + 1) + j := by omega
          rw [harith]
          have hpf : (f.parent == some ((n + 1) + j)) = false :=
            parent_beq_false f n ((n + 1) + j) (hq f (by simp)) (by omega)
          rcases ih (n + 1) (rest ++ fr) hq' j gj hj with ⟨t, ht⟩
          refine ⟨t, ?_⟩
          simp only [List.filter_cons, hpf, Bool.false_eq_true, if_false]
          exact ht

/-! ### The constructed tree: handle = trace index, ancestor walk -/

theorem initQueue_parent (v : Value) :
    ∀ f ∈ initQueue v, ∀ p, f.parent = some p → p < 0 := by
  intro f hf p hp
  simp [initQueue] at hf
  subst hf
  simp [rootFrame] at hp

/-- In one pass, every parent handle is strictly below the node's own handle
(= its index in the trace). -/
theorem tree_parent_lt (v : Value) (k : Nat) (g : NodeAttributes) (p : Nat)
    (hk : ((buildTree v).1)[k]? = some g) (hp : g.parent = some p) : p < k := by
  have := bfs_parent_lt (queueWeight (initQueue v)) 0 (initQueue v)
    (initQueue_parent v) k g p hk hp
  omega

theorem tree_flag_hered (v : Value) (k j : Nat) (g gj : NodeAttributes)
    (hk : ((buildTree v).1)[k]? = some g) (hj : ((buildTree v).1)[j]? = some gj)
    (hp : g.parent = some j) :
    j < k ∧ (gj.invalidate_offsets = true → g.invalidate_offsets = true) := by
  have := bfs_flag_hered (queueWeight (initQueue v)) 0 (initQueue v)
    (initQueue_parent v) k j g gj hk hj (by simpa using hp)
  exact this

/-- Any processed frame carrying the invalidation flag has both offsets
suppressed. -/
theorem tree_inv_offsets (v : Value) (g : NodeAttributes)
    (hg : g ∈ (buildTree v).1) (hinv : g.invalidate_offsets = true) :
    g.start_offset = none ∧ g.end_offset = none := by
  refine bfs_inv
    (fun f => f.invalidate_offsets = true → f.start_offset = none ∧ f.end_offset = none)
    ?_ (queueWeight (initQueue v)) 0 (initQueue v) ?_ g hg hinv
  · intro f handle g' hg' _ hinv'
    exact (mem_enqOf f handle g' hg').2.2 hinv'
  · intro f hf
    simp [initQueue] at hf
    subst hf
    intro hc
    simp [rootFrame] at hc

def parentIdx (tr : List NodeAttributes) (j : Nat) : Option Nat :=
  match tr[j]? with
  | none => none
  | some f => f.parent

/-- Bounded strict-ancestor walk along parent links (the walk length is
bounded by the start index because parent handles strictly decrease). -/
def isAncFuel (tr : List NodeAttributes) (i : Nat) : Nat → Nat → Bool
  | 0, _ => false
  | fuel + 1, j =>
    match parentIdx tr j with
    | none => false
    | some p => if p = i then true else if p < j then isAncFuel tr i fuel p else false

/-- `isAnc tr i j` holds when node `i` is a strict ancestor of node `j` in the
trace `tr` (handles being trace indices). -/
def isAnc (tr : List NodeAttributes) (i j : Nat) : Bool := isAncFuel tr i (j + 1) j

theorem isAncFuel_stable (tr : List NodeAttributes) (i : Nat) :
    ∀ (fuel fuel' j : Nat), j < fuel → j < fuel' →
      isAncFuel tr i fuel j = isAncFuel tr i fuel' j := by
  intro fuel
  induction fuel with
  | zero => intro fuel' j h h'; omega
  | succ fuel ih =>
    intro fuel' j h h'
    cases fuel' with
    | zero => omega
    | succ fuel' =>
      simp only [isAncFuel]
      cases parentIdx tr j with
      | none => rfl
      | some p =>
        by_cases hpi : p = i
        · simp [hpi]
        · by_cases hpj : p < j
          · simp only [hpi, if_false, hpj, if_true]
            exact ih fuel' p (by omega) (by omega)
          · simp [hpi, hpj]

theorem isAnc_eq (tr : List NodeAttributes) (i j : Nat) :
    isAnc tr i j =
      match parentIdx tr j with
      | none => false
      | some p => if p = i then true else if p < j then isAnc tr i p else false := by
  unfold isAnc
  simp only [isAncFuel]
  cases parentIdx tr j with
  | none => rfl
  | some p =>
    by_cases hpi : p = i
    · simp [hpi]
    · by_cases hpj : p < j
      · simp only [hpi, if_false, hpj, if_true]
        exact isAncFuel_stable tr i j (p + 1) p (by omega) (by omega)
      · simp [hpi, hpj]

/-- Invalidation propagates to every descendant in the trace: once a frame is
flagged, the whole subtree below it is flagged. -/
theorem tree_anc_inv (v : Value) :
    ∀ (k j : Nat) (g gj : NodeAttributes),
      ((buildTree v).1)[k]? = some g → ((buildTree v).1)[j]? = some gj →
      gj.invalidate_offsets = true → isAnc (buildTree v).1 j k = true →
      g.invalidate_offsets = true := by
  intro k
  induction k using Nat.strong_induction_on with
  | _ k ihk =>
    intro j g gj hk hj hinv hanc
    rw [isAnc_eq] at hanc
    cases hp : parentIdx (buildTree v).1 k with
    | none => rw [hp] at hanc; simp at hanc
    | some p =>
      rw [hp] at hanc
      have hanc2 :
          (if p = j then true
            else if p < k then isAnc (buildTree v).1 j p else false) = true := hanc
      have hgp : g.parent = some p := by
        unfold parentIdx at hp
        rw [hk] at hp
        exact hp
      have hpk : p < k := tree_parent_lt v k g p hk hgp
      by_cases hpj : p = j
      · subst hpj
        exact (tree_flag_hered v k p g gj hk hj hgp).2 hinv
      · rw [if_neg hpj, if_pos hpk] at hanc2
        have hklen : k < ((buildTree v).1).length :=
          (List.getElem?_eq_some_iff.mp hk).1
        have hplen : p < ((buildTree v).1).length := by omega
        have hpidx : ((buildTree v).1)[p]? = some ((buildTree v).1)[p] :=
          List.getElem?_eq_some_iff.mpr ⟨hplen, rfl⟩
        have hgpinv := ihk p hpk j ((buildTree v).1)[p] gj hpidx hj hinv hanc2
        exact (tree_flag_hered v k p g ((buildTree v).1)[p] hk hpidx hgp).2 hgpinv

/-! ### Positional facts about the named-children enumeration -/

theorem namedFrames_all_inv (handle : Nat) (ps : Option Nat) (cs : List ChildAttr)
    (g : NodeAttributes) (hg : g ∈ namedFrames handle ps true cs) :
    g.invalidate_offsets = true ∧ g.start_offset = none ∧ g.end_offset = none := by
  rcases mem_namedFrames handle ps true cs g hg with ⟨c, _, b, rfl, hb⟩
  have hb' := hb rfl
  subst hb'
  simp [namedChildFrame]

/-- Once the relativity check fires at child position `m` (nonzero parent
start, raw child start 0), the frame at every position from `m` on is flagged
and has both offsets suppressed. -/
theorem namedFrames_trigger (handle : Nat) (ps : Option Nat) (hps : ps ≠ some 0) :
    ∀ (cs : List ChildAttr) (inv0 : Bool) (m j : Nat) (c : ChildAttr) (g : NodeAttributes),
      cs[m]? = some c → c.start_offset = some 0 → m ≤ j →
      (namedFrames handle ps inv0 cs)[j]? = some g →
      g.invalidate_offsets = true ∧ g.start_offset = none ∧ g.end_offset = none := by
  intro cs
  induction cs with
  | nil =>
    intro inv0 m j c g hm hc hmj hj
    simp at hm
  | cons c0 cs ih =>
    intro inv0 m j c g hm hc hmj hj
    cases m with
    | zero =>
      simp at hm
      subst hm
      have hinv : childInvalid ps inv0 c0 = true := by
        simp [childInvalid, hps, hc]
      cases j with
      | zero =>
        simp only [namedFrames, List.getElem?_cons_zero, Option.some.injEq] at hj
        subst hj
        simp [namedChildFrame, hinv]
      | succ j =>
        simp only [namedFrames, List.getElem?_cons_succ] at hj
        have hg := List.getElem?_mem hj
        rw [hinv] at hg
        exact namedFrames_all_inv handle ps cs g hg
    | succ m =>
      cases j with
      | zero => omega
      | succ j =>
        simp only [List.getElem?_cons_succ] at hm
        simp only [namedFrames, List.getElem?_cons_succ] at hj
        exact ih (childInvalid ps inv0 c0) m j c g hm hc (by omega) hj

/-- Position of an element among the `p`-satisfying elements: the element at
index `k` sits in `l.filter p` at the index counting the earlier hits. -/
theorem filter_getElem_position {α : Type} (p : α → Bool) :
    ∀ (l : List α) (k : Nat) (a : α), l[k]? = some a → p a = true →
      (l.filter p)[((l.take k).filter p).length]? = some a := by
  intro l
  induction l with
  | nil =>
    intro k a hk hp
    simp at hk
  | cons x l ih =>
    intro k a hk hp
    cases k with
    | zero =>
      simp at hk
      subst hk
      simp [List.filter_cons, hp]
    | succ k =>
      simp only [List.getElem?_cons_succ] at hk
      have hrec := ih k a hk hp
      simp only [List.take_succ_cons, List.filter_cons]
      by_cases hx : p x
      · simp only [hx, if_true, List.length_cons, List.getElem?_cons_succ]
        exact hrec
      · simp only [hx, Bool.false_eq_true, if_false]
        exact hrec

/-- Index of a node among its siblings: the number of earlier trace entries
with the same parent handle. -/
def childPos (tr : List NodeAttributes) (i k : Nat) : Nat :=
  ((tr.take k).filter (fun g => g.parent == some i)).length

theorem tree_children_prefix (v : Value) (i : Nat) (gi : NodeAttributes)
    (hi : ((buildTree v).1)[i]? = some gi) :
    ∃ t, ((buildTree v).1).filter (fun g => g.parent == some i) ++ t = enqOf gi i := by
  have := bfs_children_prefix (queueWeight (initQueue v)) 0 (initQueue v)
    (initQueue_parent v) i gi hi
  simpa using this

/-- Every non-root node of the trace is one of the frames its parent
enqueued. -/
theorem tree_child_mem (v : Value) (i k : Nat) (gi g : NodeAttributes)
    (hi : ((buildTree v).1)[i]? = some gi) (hk : ((buildTree v).1)[k]? = some g)
    (hpar : g.parent = some i) : g ∈ enqOf gi i := by
  rcases tree_children_prefix v i gi hi with ⟨t, ht⟩
  have hmem : g ∈ ((buildTree v).1).filter (fun g => g.parent == some i) :=
    List.mem_filter.mpr ⟨List.getElem?_mem hk, by simp [hpar]⟩
  rw [← ht]
  exact List.mem_append_left t hmem

/-- The node at sibling position `childPos` is the frame enqueued at the same
position in its parent's child enumeration. -/
theorem tree_child_at_pos (v : Value) (i k : Nat) (gi g : NodeAttributes)
    (hi : ((buildTree v).1)[i]? = some gi) (hk : ((buildTree v).1)[k]? = some g)
    (hpar : g.parent = some i) :
    (enqOf gi i)[childPos (buildTree v).1 i k]? = some g := by
  rcases tree_children_prefix v i gi hi with ⟨t, ht⟩
  have hpos := filter_getElem_position (fun g => g.parent == some i)
    (buildTree v).1 k g hk (by simp [hpar])
  have hlen : childPos (buildTree v).1 i k
      < (((buildTree v).1).filter (fun g => g.parent == some i)).length :=
    (List.getElem?_eq_some_iff.mp hpos).1
  rw [← ht]
  rw [List.getElem?_append_left hlen]
  exact hpos

/-! ### Concrete decoded value graphs used as witnesses -/

def leafVal (d : String) : Value := Value.mk d [] (ChildrenResult.ok [])

def childZZ : ChildAttr := ChildAttr.mk "zz" (leafVal "zzv") (some 7) (some 9) false false

def vz : Value := Value.mk "zv" [] (ChildrenResult.ok [childZZ])

def childZ : ChildAttr := ChildAttr.mk "z" vz (some 0) (some 5) false false

def childW : ChildAttr := ChildAttr.mk "w" (leafVal "wv") (some 3) (some 4) false false

def exCs : List ChildAttr := [childZ, childW]

def va : Value := Value.mk "av" [] (ChildrenResult.ok exCs)

def varr : Value := Value.mk "arrv"
  [ArrElem.mk (leafVal "e0") (some 50) (some 55),
   ArrElem.mk (leafVal "e1") (some 55) (some 60)]
  (ChildrenResult.ok [])

def vEx : Value := Value.mk "rv" [] (ChildrenResult.ok
  [ChildAttr.mk "a" va (some 12) (some 40) false false,
   ChildAttr.mk "m" (leafVal "mv") none none true false,
   ChildAttr.mk "arr" varr (some 50) (some 60) false true])

/-- The concrete frame at trace position `k` of the pass over `vEx`. -/
def exFrame (k : Nat) : NodeAttributes :=
  ((buildTree vEx).1)[k]?.getD (rootFrame vEx)

/-! ### Claims -/

/-- C1: for every tree produced by one construction pass, if a node has a
nonzero absolute start offset `S > 0` and one of its named (non-array-element)
children reports a raw start offset of 0, then that child and every one of its
descendants have byte range `None` (both start and end offset suppressed) in
the output tree, regardless of what offsets the decoder reported for those
descendants. -/
theorem claim_C1_relativity_detection (v : Value) (i k : Nat)
    (gi g : NodeAttributes) (S : Nat)
    (hi : ((buildTree v).1)[i]? = some gi)
    (hk : ((buildTree v).1)[k]? = some g)
    (hia : gi.is_array = false)
    (hS : gi.start_offset = some S) (hSpos : 0 < S)
    (cs : List ChildAttr) (hcs : gi.value.children = ChildrenResult.ok cs)
    (m : Nat) (c : ChildAttr) (hm : cs[m]? = some c)
    (hc0 : c.start_offset = some 0)
    (hpar : g.parent = some i)
    (hpos : childPos (buildTree v).1 i k = m) :
    (g.start_offset = none ∧ g.end_offset = none) ∧
    ∀ (k' : Nat) (g' : NodeAttributes), ((buildTree v).1)[k']? = some g' →
      isAnc (buildTree v).1 k k' = true →
      g'.start_offset = none ∧ g'.end_offset = none := by
  have hps : gi.start_offset ≠ some 0 := by
    rw [hS]
    intro hcon
    cases hcon
    omega
  have henq := tree_child_at_pos v i k gi g hi hk hpar
  rw [hpos] at henq
  have henq_eq : enqOf gi i = namedFrames i gi.start_offset gi.invalidate_offsets cs := by
    simp [enqOf, childFrames, hia, hcs]
  rw [henq_eq] at henq
  rcases namedFrames_trigger i gi.start_offset hps cs gi.invalidate_offsets m m c g
    hm hc0 (le_refl m) henq with ⟨hginv, hgs, hge⟩
  refine ⟨⟨hgs, hge⟩, ?_⟩
  intro k' g' hk' hanc
  have hinv' : g'.invalidate_offsets = true := tree_anc_inv v k' k g' g hk' hk hginv hanc
  exact tree_inv_offsets v g' (List.getElem?_mem hk') hinv'

theorem claim_C1_witness :
    ((buildTree vEx).1)[1]? = some (exFrame 1) ∧
    ((buildTree vEx).1)[4]? = some (exFrame 4) ∧
    (exFrame 1).is_array = false ∧
    (exFrame 1).start_offset = some 12 ∧
    (exFrame 1).value.children = ChildrenResult.ok exCs ∧
    exCs[0]? = some childZ ∧
    childZ.start_offset = some 0 ∧
    (exFrame 4).parent = some 1 ∧
    childPos (buildTree vEx).1 1 4 = 0 ∧
    ((exFrame 4).start_offset = none ∧ (exFrame 4).end_offset = none) ∧
    ((buildTree vEx).1)[8]? = some (exFrame 8) ∧
    isAnc (buildTree vEx).1 4 8 = true ∧
    ((exFrame 8).start_offset = none ∧ (exFrame 8).end_offset = none) := by
  have hmain := claim_C1_relativity_detection vEx 1 4 (exFrame 1) (exFrame 4) 12
    rfl rfl rfl rfl (by decide) exCs rfl 0 childZ rfl rfl rfl (by decide)
  exact ⟨rfl, rfl, rfl, rfl, rfl, rfl, rfl, rfl, by decide, hmain.1,
    rfl, by decide, hmain.2 8 (exFrame 8) rfl (by decide)⟩

/-- C3: for every tree produced by one construction pass and for every
non-root node in it, the node's parent was created (its add-node call issued
and its handle recorded) strictly before the node itself: nodes are emitted in
breadth-first FIFO order with parent-before-child insertion, handles being the
emission indices. -/
theorem claim_C3_parent_before_child (v : Value) (k : Nat) (g : NodeAttributes)
    (p : Nat) (hk : ((buildTree v).1)[k]? = some g) (hp : g.parent = some p) :
    p < k :=
  tree_parent_lt v k g p hk hp

theorem claim_C3_witness :
    ((buildTree vEx).1)[4]? = some (exFrame 4) ∧
    (exFrame 4).parent = some 1 ∧ 1 < 4 :=
  ⟨rfl, rfl, claim_C3_parent_before_child vEx 4 (exFrame 4) 1 rfl rfl⟩

/-- C9: when, during enumeration of a node's named children, some child
triggers the relativity check (parent start offset nonzero — in particular
`S > 0` — and that child's raw start offset equal to 0), then every node that
is a sibling at position at least the triggering child's — not only the
triggering child itself — has its start and end offsets suppressed to `None`
and carries `offsets_invalid` forward, and so does every descendant of any
such sibling, because the flag is a single per-frame variable never reset
within the child loop. -/
theorem claim_C9_sibling_invalidation (v : Value) (i k : Nat)
    (gi g : NodeAttributes) (S : Nat)
    (hi : ((buildTree v).1)[i]? = some gi)
    (hk : ((buildTree v).1)[k]? = some g)
    (hia : gi.is_array = false)
    (hS : gi.start_offset = some S) (hSpos : 0 < S)
    (cs : List ChildAttr) (hcs : gi.value.children = ChildrenResult.ok cs)
    (m : Nat) (c : ChildAttr) (hm : cs[m]? = some c)
    (hc0 : c.start_offset = some 0)
    (hpar : g.parent = some i)
    (hpos : m ≤ childPos (buildTree v).1 i k) :
    (g.invalidate_offsets = true ∧ g.start_offset = none ∧ g.end_offset = none) ∧
    ∀ (k' : Nat) (g' : NodeAttributes), ((buildTree v).1)[k']? = some g' →
      isAnc (buildTree v).1 k k' = true →
      g'.invalidate_offsets = true ∧ g'.start_offset = none ∧ g'.end_offset = none := by
  have hps : gi.start_offset ≠ some 0 := by
    rw [hS]
    intro hcon
    cases hcon
    omega
  have henq := tree_child_at_pos v i k gi g hi hk hpar
  have henq_eq : enqOf gi i = namedFrames i gi.start_offset gi.invalidate_offsets cs := by
    simp [enqOf, childFrames, hia, hcs]
  rw [henq_eq] at henq
  rcases namedFrames_trigger i gi.start_offset hps cs gi.invalidate_offsets m
    (childPos (buildTree v).1 i k) c g hm hc0 hpos henq with ⟨hginv, hgs, hge⟩
  refine ⟨⟨hginv, hgs, hge⟩, ?_⟩
  intro k' g' hk' hanc
  have hinv' : g'.invalidate_offsets = true := tree_anc_inv v k' k g' g hk' hk hginv hanc
  rcases tree_inv_offsets v g' (List.getElem?_mem hk') hinv' with ⟨h1, h2⟩
  exact ⟨hinv', h1, h2⟩

theorem claim_C9_witness :
    ((buildTree vEx).1)[5]? = some (exFrame 5) ∧
    (exFrame 5).parent = some 1 ∧
    childPos (buildTree vEx).1 1 5 = 1 ∧
    childW.start_offset = some 3 ∧
    (exFrame 5).invalidate_offsets = true ∧
    (exFrame 5).start_offset = none ∧ (exFrame 5).end_offset = none := by
  have hmain := claim_C9_sibling_invalidation vEx 1 5 (exFrame 1) (exFrame 5) 12
    rfl rfl rfl rfl (by decide) exCs rfl 0 childZ rfl rfl rfl (by decide)
  exact ⟨rfl, rfl, by decide, rfl, hmain.1.1, hmain.1.2.1, hmain.1.2.2⟩

/-- C4: for every array-node frame dequeued during construction, the element
frames enqueued for its positionally indexed children never trigger new
offset invalidation: each element node's `offsets_invalid` flag equals its
parent's flag, and each element node is built by the pass-through element
constructor — the relativity check exists only in the named-children branch. -/
theorem claim_C4_array_passthrough (v : Value) (i k : Nat)
    (gi g : NodeAttributes)
    (hi : ((buildTree v).1)[i]? = some gi)
    (hk : ((buildTree v).1)[k]? = some g)
    (hia : gi.is_array = true) (hpar : g.parent = some i) :
    g.invalidate_offsets = gi.invalidate_offsets ∧
    ∃ e ∈ gi.value.arrElems, ∃ j, g = arrayElemFrame i gi.invalidate_offsets j e := by
  have hmem := tree_child_mem v i k gi g hi hk hpar
  have henq_eq : enqOf gi i = arrayFrames i gi.invalidate_offsets 0 gi.value.arrElems := by
    simp [enqOf, childFrames, hia]
  rw [henq_eq] at hmem
  rcases mem_arrayFrames _ _ _ _ _ hmem with ⟨e, he, j, rfl⟩
  exact ⟨rfl, e, he, j, rfl⟩

theorem claim_C4_witness :
    ((buildTree vEx).1)[3]? = some (exFrame 3) ∧
    ((buildTree vEx).1)[6]? = some (exFrame 6) ∧
    (exFrame 3).is_array = true ∧
    (exFrame 6).parent = some 3 ∧
    (exFrame 6).invalidate_offsets = (exFrame 3).invalidate_offsets := by
  have hmain := claim_C4_array_passthrough vEx 3 6 (exFrame 3) (exFrame 6)
    rfl rfl rfl rfl
  exact ⟨rfl, rfl, rfl, rfl, hmain.1⟩

/-- C10: every frame enqueued for an array element is created with
`is_metavar` false and `is_array` false unconditionally, regardless of the
element value's actual kind; consequently an element of an array is always
expanded via named-child enumeration, never as a nested positional array, and
is never rendered as a pseudo field. -/
theorem claim_C10_array_elem_flags (v : Value) (i k : Nat)
    (gi g : NodeAttributes)
    (hi : ((buildTree v).1)[i]? = some gi)
    (hk : ((buildTree v).1)[k]? = some g)
    (hia : gi.is_array = true) (hpar : g.parent = some i) :
    g.is_metavar = false ∧ g.is_array = false := by
  have hmem := tree_child_mem v i k gi g hi hk hpar
  have henq_eq : enqOf gi i = arrayFrames i gi.invalidate_offsets 0 gi.value.arrElems := by
    simp [enqOf, childFrames, hia]
  rw [henq_eq] at hmem
  rcases mem_arrayFrames _ _ _ _ _ hmem with ⟨e, he, j, rfl⟩
  exact ⟨rfl, rfl⟩

theorem claim_C10_witness :
    ((buildTree vEx).1)[3]? = some (exFrame 3) ∧
    ((buildTree vEx).1)[7]? = some (exFrame 7) ∧
    (exFrame 3).is_array = true ∧
    (exFrame 7).parent = some 3 ∧
    (exFrame 7).is_metavar = false ∧ (exFrame 7).is_array = false := by
  have hmain := claim_C10_array_elem_flags vEx 3 7 (exFrame 3) (exFrame 7)
    rfl rfl rfl rfl
  exact ⟨rfl, rfl, rfl, rfl, hmain.1, hmain.2⟩

/-- A complete byte range out of a pair of optional bounds. -/
def rangeOf (s e : Option Nat) : Option (Nat × Nat) :=
  match s, e with
  | some s, some e => some (s, e)
  | _, _ => none

/-- The byte range of a node: present only when both offset bounds are. -/
def frameRange (f : NodeAttributes) : Option (Nat × Nat) :=
  rangeOf f.start_offset f.end_offset

theorem tree_head (v : Value) : ((buildTree v).1)[0]? = some (rootFrame v) := by
  unfold buildTree initQueue
  have h1 : 1 ≤ queueWeight [rootFrame v] := by
    simp [queueWeight, frameWeight]
  cases hw : queueWeight [rootFrame v] with
  | zero => omega
  | succ w =>
    simp only [runBFSF]
    cases h : childFrames (rootFrame v) 0 <;> simp

/-- C5: every tree produced by one construction pass is rooted at exactly one
synthetic root node whose name is "root", which has no byte range, is not
pseudo, and is not an array; the construction queue is seeded with exactly one
frame for this root with parent equal to the sentinel and `offsets_invalid`
false; every other node of the pass has a non-sentinel parent. -/
theorem claim_C5_root (v : Value) :
    initQueue v = [rootFrame v] ∧
    (rootFrame v).parent = none ∧
    (rootFrame v).name = "root" ∧
    frameRange (rootFrame v) = none ∧
    (rootFrame v).is_metavar = false ∧
    (rootFrame v).is_array = false ∧
    (rootFrame v).invalidate_offsets = false ∧
    ((buildTree v).1)[0]? = some (rootFrame v) ∧
    (∀ (k : Nat) (g : NodeAttributes), 0 < k → ((buildTree v).1)[k]? = some g →
      ∃ p, g.parent = some p) := by
  refine ⟨rfl, rfl, rfl, rfl, rfl, rfl, rfl, tree_head v, ?_⟩
  intro k g hk0 hkE
  have hdrop : ∀ f ∈ (initQueue v).drop 1, ∃ p, f.parent = some p ∧ 0 ≤ p := by
    intro f hf
    simp [initQueue] at hf
  rcases bfs_drop_parent (queueWeight (initQueue v)) 0 0 (initQueue v) 1
    (le_refl 0) hdrop k g (by omega) hkE with ⟨p, hp, _⟩
  exact ⟨p, hp⟩

theorem claim_C5_witness :
    initQueue vEx = [rootFrame vEx] ∧
    ((buildTree vEx).1)[0]? = some (rootFrame vEx) ∧
    frameRange (rootFrame vEx) = none ∧
    (0 < 2 ∧ ((buildTree vEx).1)[2]? = some (exFrame 2)) ∧
    (∃ p, (exFrame 2).parent = some p) := by
  obtain ⟨h1, _, _, h4, _, _, _, h8, h9⟩ := claim_C5_root vEx
  exact ⟨h1, h8, h4, ⟨by decide, rfl⟩, h9 2 (exFrame 2) (by decide) rfl⟩

/-! ### Handle-translation invariance (the view hands out opaque handles;
in the embedding a later pass starts from a larger item counter `d`) -/

def shiftFrame (d : Nat) (f : NodeAttributes) : NodeAttributes :=
  { f with parent := f.parent.map (fun p => p + d) }

theorem shiftFrame_namedChildFrame (d handle : Nat) (inv : Bool) (c : ChildAttr) :
    shiftFrame d (namedChildFrame handle inv c) = namedChildFrame (handle + d) inv c := rfl

theorem shiftFrame_arrayElemFrame (d handle : Nat) (inv : Bool) (i : Nat) (e : ArrElem) :
    shiftFrame d (arrayElemFrame handle inv i e) = arrayElemFrame (handle + d) inv i e := rfl

theorem namedFrames_shift (d handle : Nat) (ps : Option Nat) :
    ∀ (inv0 : Bool) (cs : List ChildAttr),
      namedFrames (handle + d) ps inv0 cs
        = (namedFrames handle ps inv0 cs).map (shiftFrame d) := by
  intro inv0 cs
  induction cs generalizing inv0 with
  | nil => rfl
  | cons c cs ih =>
    simp [namedFrames, ih, shiftFrame_namedChildFrame]

theorem arrayFrames_shift (d handle : Nat) (inv : Bool) :
    ∀ (i : Nat) (es : List ArrElem),
      arrayFrames (handle + d) inv i es = (arrayFrames handle inv i es).map (shiftFrame d) := by
  intro i es
  induction es generalizing i with
  | nil => rfl
  | cons e es ih =>
    simp [arrayFrames, ih, shiftFrame_arrayElemFrame]

theorem childFrames_shift (d : Nat) (f : NodeAttributes) (handle : Nat) :
    childFrames (shiftFrame d f) (handle + d)
      = Except.map (List.map (shiftFrame d)) (childFrames f handle) := by
  obtain ⟨par, nm, val, so, eo, im, ia, io⟩ := f
  simp only [shiftFrame]
  cases ia with
  | true =>
    simp only [childFrames, if_true]
    rw [arrayFrames_shift]
    rfl
  | false =>
    simp only [childFrames, Bool.false_eq_true, if_false]
    cases val.children with
    | err e => rfl
    | ok cs =>
      show Except.ok (namedFrames (handle + d) so io cs)
          = Except.map (List.map (shiftFrame d)) (Except.ok (namedFrames handle so io cs))
      rw [namedFrames_shift]
      rfl

theorem bfs_shift (d : Nat) : ∀ (fuel n : Nat) (q : List NodeAttributes),
    runBFSF fuel (n + d) (q.map (shiftFrame d))
      = ((runBFSF fuel n q).1.map (shiftFrame d), (runBFSF fuel n q).2) := by
  intro fuel
  induction fuel with
  | zero =>
    intro n q
    cases q <;> simp [runBFSF]
  | succ fuel ih =>
    intro n q
    cases q with
    | nil => simp [runBFSF]
    | cons f rest =>
      simp only [List.map_cons, runBFSF]
      cases h : childFrames f n with
      | error e =>
        have h2 : childFrames (shiftFrame d f) (n + d) = .error e := by
          rw [childFrames_shift, h]
          rfl
        simp [h2]
      | ok fr =>
        have h2 : childFrames (shiftFrame d f) (n + d) = .ok (fr.map (shiftFrame d)) := by
          rw [childFrames_shift, h]
          rfl
        simp only [h2]
        have harith : n + d + 1 = (n + 1) + d := by omega
        rw [harith]
        have hmap : (rest.map (shiftFrame d)) ++ (fr.map (shiftFrame d))
            = (rest ++ fr).map (shiftFrame d) := (List.map_append (shiftFrame d) rest fr).symm
        rw [hmap, ih (n + 1) (rest ++ fr)]
        simp

/-- C7: running the construction pass twice with the same root value and the
same decoder produces structurally identical trees — node names, descriptions,
byte offsets, pseudo/array flags, and parents-by-position all coincide — while
the opaque handles may differ: a pass whose handle counter starts at `d`
(the only freedom the view's handle allocation has in this embedding) yields
the first pass's trace with every handle shifted by `d`. -/
theorem claim_C7_idempotence (v : Value) (d : Nat) :
    (runBFSF (queueWeight (initQueue v)) d (initQueue v)).1
        = ((buildTree v).1).map (shiftFrame d) ∧
    (runBFSF (queueWeight (initQueue v)) d (initQueue v)).2 = (buildTree v).2 ∧
    (runBFSF (queueWeight (initQueue v)) d (initQueue v)).1.map (fun g => g.name)
        = ((buildTree v).1).map (fun g => g.name) ∧
    (runBFSF (queueWeight (initQueue v)) d (initQueue v)).1.map (fun g => g.value.descr)
        = ((buildTree v).1).map (fun g => g.value.descr) ∧
    (runBFSF (queueWeight (initQueue v)) d (initQueue v)).1.map (fun g => g.start_offset)
        = ((buildTree v).1).map (fun g => g.start_offset) ∧
    (runBFSF (queueWeight (initQueue v)) d (initQueue v)).1.map (fun g => g.end_offset)
        = ((buildTree v).1).map (fun g => g.end_offset) ∧
    (runBFSF (queueWeight (initQueue v)) d (initQueue v)).1.map (fun g => g.is_metavar)
        = ((buildTree v).1).map (fun g => g.is_metavar) ∧
    (runBFSF (queueWeight (initQueue v)) d (initQueue v)).1.map (fun g => g.is_array)
        = ((buildTree v).1).map (fun g => g.is_array) ∧
    (runBFSF (queueWeight (initQueue v)) d (initQueue v)).1.map (fun g => g.parent)
        = ((buildTree v).1).map (fun g => g.parent.map (fun p => p + d)) := by
  have hq : (initQueue v).map (shiftFrame d) = initQueue v := by
    simp [initQueue, rootFrame, shiftFrame]
  have hkey := bfs_shift d (queueWeight (initQueue v)) 0 (initQueue v)
  rw [Nat.zero_add, hq] at hkey
  have h1 : (runBFSF (queueWeight (initQueue v)) d (initQueue v)).1
      = ((buildTree v).1).map (shiftFrame d) := by
    rw [hkey]
    rfl
  have h2 : (runBFSF (queueWeight (initQueue v)) d (initQueue v)).2
      = (buildTree v).2 := by
    rw [hkey]
    rfl
  refine ⟨h1, h2, ?_, ?_, ?_, ?_, ?_, ?_, ?_⟩ <;>
    rw [h1, List.map_map] <;> rfl

/-! ### Full case analysis of an enqueued frame -/

theorem mem_enqOf_cases (f : NodeAttributes) (handle : Nat) (g : NodeAttributes)
    (hg : g ∈ enqOf f handle) :
    (f.is_array = true ∧ ∃ e ∈ f.value.arrElems, ∃ j,
        g = arrayElemFrame handle f.invalidate_offsets j e) ∨
    (f.is_array = false ∧ ∃ cs, f.value.children = ChildrenResult.ok cs ∧
        ∃ c ∈ cs, ∃ b, g = namedChildFrame handle b c ∧
          (f.invalidate_offsets = true → b = true)) := by
  unfold enqOf at hg
  cases h : childFrames f handle with
  | error e => rw [h] at hg; simp at hg
  | ok fr =>
    rw [h] at hg
    unfold childFrames at h
    by_cases ha : f.is_array = true
    · rw [if_pos ha] at h
      cases h
      left
      rcases mem_arrayFrames _ _ _ _ _ hg with ⟨e, he, j, rfl⟩
      exact ⟨ha, e, he, j, rfl⟩
    · rw [if_neg ha] at h
      cases hc : f.value.children with
      | err e => rw [hc] at h; cases h
      | ok cs =>
        rw [hc] at h
        cases h
        right
        refine ⟨by revert ha; cases f.is_array <;> simp, cs, rfl, ?_⟩
        rcases mem_namedFrames _ _ _ _ _ hg with ⟨c, hcmem, b, rfl, hb⟩
        exact ⟨c, hcmem, b, rfl, hb⟩

/-! ### Pseudo fields (spec-modelled decoder behaviour) -/

mutual

/-- Modelled from the spec: the per-format decoder reports no byte range for
pseudo (display-only) fields — "Pseudo field: a display-only node with no
associated bytes" — recursively through the whole decoded value graph.  The
decoder implementation (the model package of the repository) is not part of
this source snapshot. -/
def pseudoNoOff : Value → Bool
  | .mk _ es cs => pseudoNoOffElems es && pseudoNoOffChildren cs

def pseudoNoOffElems : List ArrElem → Bool
  | [] => true
  | e :: es => pseudoNoOffElem e && pseudoNoOffElems es

def pseudoNoOffElem : ArrElem → Bool
  | .mk v _ _ => pseudoNoOff v

def pseudoNoOffChildren : ChildrenResult → Bool
  | .ok cs => pseudoNoOffAttrs cs
  | .err _ => true

def pseudoNoOffAttrs : List ChildAttr → Bool
  | [] => true
  | c :: cs => pseudoNoOffAttr c && pseudoNoOffAttrs cs

def pseudoNoOffAttr : ChildAttr → Bool
  | .mk _ v s e m _ => (!m || (s == none && e == none)) && pseudoNoOff v

end

theorem pseudoNoOffAttrs_mem (cs : List ChildAttr) (c : ChildAttr) (hc : c ∈ cs)
    (h : pseudoNoOffAttrs cs = true) : pseudoNoOffAttr c = true := by
  induction cs with
  | nil => simp at hc
  | cons c0 cs ih =>
    simp only [pseudoNoOffAttrs, Bool.and_eq_true] at h
    rcases List.mem_cons.mp hc with rfl | hc'
    · exact h.1
    · exact ih hc' h.2

theorem pseudoNoOffElems_mem (es : List ArrElem) (e : ArrElem) (he : e ∈ es)
    (h : pseudoNoOffElems es = true) : pseudoNoOffElem e = true := by
  induction es with
  | nil => simp at he
  | cons e0 es ih =>
    simp only [pseudoNoOffElems, Bool.and_eq_true] at h
    rcases List.mem_cons.mp he with rfl | he'
    · exact h.1
    · exact ih he' h.2

/-- Under the spec-modelled decoder contract, every pseudo node of the tree
has both offsets absent, and every node's own value graph still satisfies the
contract. -/
theorem tree_pseudo_offsets (v : Value) (hv : pseudoNoOff v = true)
    (g : NodeAttributes) (hg : g ∈ (buildTree v).1) :
    (g.is_metavar = true → g.start_offset = none ∧ g.end_offset = none) ∧
    pseudoNoOff g.value = true := by
  refine bfs_inv
    (fun f => (f.is_metavar = true → f.start_offset = none ∧ f.end_offset = none) ∧
      pseudoNoOff f.value = true)
    ?_ (queueWeight (initQueue v)) 0 (initQueue v) ?_ g hg
  · intro f handle g' hg' hPf
    rcases mem_enqOf_cases f handle g' hg'
      with ⟨ha, e, he, j, rfl⟩ | ⟨ha, cs, hcs, c, hcm, b, rfl, hb⟩
    · constructor
      · intro hm
        simp [arrayElemFrame] at hm
      · have hval := hPf.2
        cases hvv : f.value with
        | mk d es csr =>
          rw [hvv] at hval
          simp only [pseudoNoOff, Bool.and_eq_true] at hval
          have hees : e ∈ es := by
            rw [hvv] at he
            exact he
          have he2 := pseudoNoOffElems_mem es e hees hval.1
          cases e with
          | mk ev s en =>
            simpa [arrayElemFrame, ArrElem.value, pseudoNoOffElem] using he2
    · have hval := hPf.2
      cases hvv : f.value with
      | mk d es csr =>
        rw [hvv] at hval
        simp only [pseudoNoOff, Bool.and_eq_true] at hval
        have hcsr : csr = ChildrenResult.ok cs := by
          rw [hvv] at hcs
          exact hcs
        subst hcsr
        have hattr := pseudoNoOffAttrs_mem cs c hcm hval.2
        cases c with
        | mk nm cv s en m ar =>
          simp only [pseudoNoOffAttr, Bool.and_eq_true] at hattr
          constructor
          · intro hm
            simp only [namedChildFrame, ChildAttr.is_metavar] at hm
            subst hm
            simp only [Bool.not_true, Bool.false_or, Bool.and_eq_true, beq_iff_eq]
              at hattr
            rcases hattr.1 with ⟨hs, hen⟩
            subst hs
            subst hen
            simp [namedChildFrame, ChildAttr.start_offset, ChildAttr.end_offset]
          · simpa [namedChildFrame, ChildAttr.value] using hattr.2
  · intro f hf
    simp [initQueue] at hf
    subst hf
    exact ⟨by intro hm; simp [rootFrame] at hm, hv⟩

/-! ### Correlation API: selection (spec-modelled view half) -/

/-- Modelled from the spec: the view stores for each tree item exactly the
offsets passed to `add_tree_item`, and `select(handle)` returns the node's
byte range if present (`cb_structure_selected` receives those stored offsets);
the view-side widget code is not part of this source snapshot. -/
def select (tr : List NodeAttributes) (h : Nat) : Option (Nat × Nat) :=
  match tr[h]? with
  | none => none
  | some f => frameRange f

inductive ViewCommand : Type where
  | markRange : Nat → Nat → ViewCommand
  | makeVisible : Nat → ViewCommand

/-- Modelled from the spec: the highlight and scroll-into-view commands the
selection path issues on the raw-byte view — none at all when the selected
node has no byte range (the no-op case of `select`). -/
def selectCommands (tr : List NodeAttributes) (h : Nat) : List ViewCommand :=
  match select tr h with
  | none => []
  | some (s, e) => [ViewCommand.markRange s e, ViewCommand.makeVisible s]

/-- C6: for every completed tree, selecting a pseudo node or an
offset-invalidated node is a no-op: `select` returns `none` and issues no
highlight or scroll command on the raw-byte view; for any other node with a
byte range, `select` returns that range (under the spec-modelled decoder
contract that pseudo fields carry no offsets). -/
theorem claim_C6_select (v : Value) (hv : pseudoNoOff v = true) (h : Nat)
    (g : NodeAttributes) (hg : ((buildTree v).1)[h]? = some g) :
    ((g.is_metavar = true ∨ g.invalidate_offsets = true) →
      select (buildTree v).1 h = none ∧ selectCommands (buildTree v).1 h = []) ∧
    (∀ s e, g.start_offset = some s → g.end_offset = some e →
      select (buildTree v).1 h = some (s, e)) := by
  constructor
  · intro hcase
    have hoff : g.start_offset = none ∧ g.end_offset = none := by
      rcases hcase with hm | hinv
      · exact (tree_pseudo_offsets v hv g (List.getElem?_mem hg)).1 hm
      · exact tree_inv_offsets v g (List.getElem?_mem hg) hinv
    have hsel : select (buildTree v).1 h = none := by
      simp [select, hg, frameRange, rangeOf, hoff.1]
    exact ⟨hsel, by simp [selectCommands, hsel]⟩
  · intro s e hs he
    simp [select, hg, frameRange, rangeOf, hs, he]

theorem claim_C6_witness :
    pseudoNoOff vEx = true ∧
    ((buildTree vEx).1)[2]? = some (exFrame 2) ∧
    (exFrame 2).is_metavar = true ∧
    select (buildTree vEx).1 2 = none ∧
    selectCommands (buildTree vEx).1 2 = [] ∧
    ((buildTree vEx).1)[4]? = some (exFrame 4) ∧
    (exFrame 4).invalidate_offsets = true ∧
    select (buildTree vEx).1 4 = none ∧
    ((buildTree vEx).1)[1]? = some (exFrame 1) ∧
    (exFrame 1).start_offset = some 12 ∧ (exFrame 1).end_offset = some 40 ∧
    select (buildTree vEx).1 1 = some (12, 40) := by
  have h2 := claim_C6_select vEx (by decide) 2 (exFrame 2) rfl
  have h4 := claim_C6_select vEx (by decide) 4 (exFrame 4) rfl
  have h1 := claim_C6_select vEx (by decide) 1 (exFrame 1) rfl
  rcases h2.1 (Or.inl rfl) with ⟨hs2, hc2⟩
  rcases h4.1 (Or.inr rfl) with ⟨hs4, _⟩
  exact ⟨by decide, rfl, rfl, hs2, hc2, rfl, rfl, hs4, rfl, rfl, rfl,
    h1.2 12 40 rfl rfl⟩

/-! ### Range nesting (decoder-supplied ranges; the engine copies them
verbatim apart from relativity suppression) -/

/-- Containment of a reported child range in `r`, trivially true when either
side is incomplete. -/
def containB (r : Option (Nat × Nat)) (s e : Option Nat) : Bool :=
  match r, s, e with
  | some (ps, pe), some cs, some ce => decide (ps ≤ cs) && decide (ce ≤ pe)
  | _, _, _ => true

mutual

/-- Pairwise nesting of the ranges the decoder reports: under an enclosing
range `r`, every named child's and array element's complete reported range is
contained in `r`, recursively with that child's own reported range enclosing
its subtree. -/
def pairWF : Option (Nat × Nat) → Value → Bool
  | r, .mk _ es cs => pairWFElems r es && pairWFChildren r cs

def pairWFElems : Option (Nat × Nat) → List ArrElem → Bool
  | _, [] => true
  | r, e :: es => pairWFElem r e && pairWFElems r es

def pairWFElem : Option (Nat × Nat) → ArrElem → Bool
  | r, .mk v s e => containB r s e && pairWF (rangeOf s e) v

def pairWFChildren : Option (Nat × Nat) → ChildrenResult → Bool
  | r, .ok cs => pairWFAttrs r cs
  | _, .err _ => true

def pairWFAttrs : Option (Nat × Nat) → List ChildAttr → Bool
  | _, [] => true
  | r, c :: cs => pairWFAttr r c && pairWFAttrs r cs

def pairWFAttr : Option (Nat × Nat) → ChildAttr → Bool
  | r, .mk _ v s e _ _ => containB r s e && pairWF (rangeOf s e) v

end

theorem pairWFElems_mem (r : Option (Nat × Nat)) (es : List ArrElem) (e : ArrElem)
    (he : e ∈ es) (h : pairWFElems r es = true) : pairWFElem r e = true := by
  induction es with
  | nil => simp at he
  | cons e0 es ih =>
    simp only [pairWFElems, Bool.and_eq_true] at h
    rcases List.mem_cons.mp he with rfl | he'
    · exact h.1
    · exact ih he' h.2

theorem pairWFAttrs_mem (r : Option (Nat × Nat)) (cs : List ChildAttr) (c : ChildAttr)
    (hc : c ∈ cs) (h : pairWFAttrs r cs = true) : pairWFAttr r c = true := by
  induction cs with
  | nil => simp at hc
  | cons c0 cs ih =>
    simp only [pairWFAttrs, Bool.and_eq_true] at h
    rcases List.mem_cons.mp hc with rfl | hc'
    · exact h.1
    · exact ih hc' h.2

theorem pairWFElems_none (r : Option (Nat × Nat)) (es : List ArrElem)
    (h : pairWFElems r es = true) : pairWFElems none es = true := by
  induction es with
  | nil => rfl
  | cons e es ih =>
    simp only [pairWFElems, Bool.and_eq_true] at h ⊢
    refine ⟨?_, ih h.2⟩
    cases e with
    | mk v s en =>
      have := h.1
      simp only [pairWFElem, Bool.and_eq_true] at this ⊢
      exact ⟨rfl, this.2⟩

theorem pairWFAttrs_none (r : Option (Nat × Nat)) (cs : List ChildAttr)
    (h : pairWFAttrs r cs = true) : pairWFAttrs none cs = true := by
  induction cs with
  | nil => rfl
  | cons c cs ih =>
    simp only [pairWFAttrs, Bool.and_eq_true] at h ⊢
    refine ⟨?_, ih h.2⟩
    cases c with
    | mk nm v s en m a =>
      have := h.1
      simp only [pairWFAttr, Bool.and_eq_true] at this ⊢
      exact ⟨rfl, this.2⟩

/-- Nesting under any enclosing range is at least as strong as nesting under
no range at all. -/
theorem pairWF_none (r : Option (Nat × Nat)) (v : Value)
    (h : pairWF r v = true) : pairWF none v = true := by
  cases v with
  | mk d es cs =>
    simp only [pairWF, Bool.and_eq_true] at h ⊢
    refine ⟨pairWFElems_none r es h.1, ?_⟩
    cases cs with
    | ok cl =>
      have := h.2
      simp only [pairWFChildren] at this ⊢
      exact pairWFAttrs_none r cl this
    | err e => rfl

theorem frameRange_arrayElemFrame (handle : Nat) (inv : Bool) (j : Nat) (e : ArrElem) :
    frameRange (arrayElemFrame handle inv j e)
      = if inv then none else rangeOf e.start_offset e.end_offset := by
  cases inv <;> rfl

theorem frameRange_namedChildFrame (handle : Nat) (b : Bool) (c : ChildAttr) :
    frameRange (namedChildFrame handle b c)
      = if b then none else rangeOf c.start_offset c.end_offset := by
  cases b <;> rfl

/-- The engine preserves the decoder's range nesting along every frame: a
frame's own byte range encloses the subtree the decoder reports below it. -/
theorem tree_pairWF (v : Value) (hv : pairWF none v = true)
    (g : NodeAttributes) (hg : g ∈ (buildTree v).1) :
    pairWF (frameRange g) g.value = true := by
  refine bfs_inv (fun f => pairWF (frameRange f) f.value = true)
    ?_ (queueWeight (initQueue v)) 0 (initQueue v) ?_ g hg
  · intro f handle g' hg' hPf
    rcases mem_enqOf_cases f handle g' hg'
      with ⟨ha, e, he, j, rfl⟩ | ⟨ha, cs, hcs, c, hcm, b, rfl, hb⟩
    · cases hvv : f.value with
      | mk d es csr =>
        rw [hvv] at hPf
        simp only [pairWF, Bool.and_eq_true] at hPf
        have he' : e ∈ es := by
          rw [hvv] at he
          exact he
        have helem := pairWFElems_mem _ es e he' hPf.1
        cases e with
        | mk ev s en =>
          simp only [pairWFElem, Bool.and_eq_true] at helem
          have hval : (arrayElemFrame handle f.invalidate_offsets j (ArrElem.mk ev s en)).value
              = ev := rfl
          rw [frameRange_arrayElemFrame, hval]
          cases hinv : f.invalidate_offsets with
          | true =>
            simp only [if_true]
            exact pairWF_none _ ev helem.2
          | false =>
            simp only [Bool.false_eq_true, if_false]
            exact helem.2
    · cases hvv : f.value with
      | mk d es csr =>
        rw [hvv] at hPf
        simp only [pairWF, Bool.and_eq_true] at hPf
        have hcsr : csr = ChildrenResult.ok cs := by
          rw [hvv] at hcs
          exact hcs
        subst hcsr
        have hattr := pairWFAttrs_mem _ cs c hcm hPf.2
        cases c with
        | mk nm cv s en m a =>
          simp only [pairWFAttr, Bool.and_eq_true] at hattr
          have hval : (namedChildFrame handle b (ChildAttr.mk nm cv s en m a)).value
              = cv := rfl
          rw [frameRange_namedChildFrame, hval]
          cases b with
          | true =>
            simp only [if_true]
            exact pairWF_none _ cv hattr.2
          | false =>
            simp only [Bool.false_eq_true, if_false]
            exact hattr.2
  · intro f hf
    simp [initQueue] at hf
    subst hf
    have : frameRange (rootFrame v) = none := rfl
    rw [this]
    exact hv

/-- C8 (amended): range containment holds whenever the decoder's reported
ranges are themselves pairwise nested (`pairWF`): for every node `n` with a
complete byte range whose parent `p` also has one, `p.start <= n.start` and
`n.end <= p.end`; within an invalidation-hit subtree the ranges are instead
suppressed to `None` (so such pairs never arise there).  Without the decoder
hypothesis the engine copies reported ranges verbatim and containment can
fail. -/
theorem claim_C8_amended (v : Value) (hv : pairWF none v = true)
    (i k : Nat) (gi g : NodeAttributes)
    (hi : ((buildTree v).1)[i]? = some gi)
    (hk : ((buildTree v).1)[k]? = some g)
    (hpar : g.parent = some i)
    (ps pe cs2 ce : Nat)
    (hips : gi.start_offset = some ps) (hipe : gi.end_offset = some pe)
    (hks : g.start_offset = some cs2) (hke : g.end_offset = some ce) :
    ps ≤ cs2 ∧ ce ≤ pe := by
  have hPgi := tree_pairWF v hv gi (List.getElem?_mem hi)
  have hr : frameRange gi = some (ps, pe) := by
    simp [frameRange, rangeOf, hips, hipe]
  rw [hr] at hPgi
  have hmem := tree_child_mem v i k gi g hi hk hpar
  rcases mem_enqOf_cases gi i g hmem
    with ⟨ha, e, he, j, hge⟩ | ⟨ha, cs, hcs, c, hcm, b, hgc, hb⟩
  · subst hge
    cases hinv : gi.invalidate_offsets with
    | true =>
      rw [hinv] at hks
      simp [arrayElemFrame] at hks
    | false =>
      rw [hinv] at hks hke
      cases hvv : gi.value with
      | mk d es csr =>
        rw [hvv] at hPgi
        simp only [pairWF, Bool.and_eq_true] at hPgi
        have he' : e ∈ es := by
          rw [hvv] at he
          exact he
        have helem := pairWFElems_mem _ es e he' hPgi.1
        cases e with
        | mk ev s en =>
          simp only [pairWFElem, Bool.and_eq_true] at helem
          have hcont := helem.1
          simp only [arrayElemFrame, Bool.false_eq_true, if_false] at hks hke
          rw [ArrElem.start_offset] at hks
          rw [ArrElem.end_offset] at hke
          rw [hks, hke] at hcont
          simp only [containB, Bool.and_eq_true, decide_eq_true_eq] at hcont
          exact hcont
  · subst hgc
    cases b with
    | true =>
      simp [namedChildFrame] at hks
    | false =>
      cases hvv : gi.value with
      | mk d es csr =>
        rw [hvv] at hPgi
        simp only [pairWF, Bool.and_eq_true] at hPgi
        have hcsr : csr = ChildrenResult.ok cs := by
          rw [hvv] at hcs
          exact hcs
        subst hcsr
        have hattr := pairWFAttrs_mem _ cs c hcm hPgi.2
        cases c with
        | mk nm cv s en m a =>
          simp only [pairWFAttr, Bool.and_eq_true] at hattr
          have hcont := hattr.1
          simp only [namedChildFrame, Bool.false_eq_true, if_false] at hks hke
          rw [ChildAttr.start_offset] at hks
          rw [ChildAttr.end_offset] at hke
          rw [hks, hke] at hcont
          simp only [containB, Bool.and_eq_true, decide_eq_true_eq] at hcont
          exact hcont

def childB : ChildAttr :=
  ChildAttr.mk "b" (leafVal "bv") (some 2) (some 90) false false

def vA8 : Value := Value.mk "a8" [] (ChildrenResult.ok [childB])

/-- A decoder output whose reported ranges are not nested: child `a` spans
bytes 5..10 while its own child `b` claims 2..90 (and `2 ≠ 0`, so no
relativity suppression fires). -/
def v8 : Value := Value.mk "r8" [] (ChildrenResult.ok
  [ChildAttr.mk "a" vA8 (some 5) (some 10) false false])

def ex8Frame (k : Nat) : NodeAttributes :=
  ((buildTree v8).1)[k]?.getD (rootFrame v8)

/-- C8 (counterexample): the engine asserts no containment — it copies the
decoder's ranges verbatim — so a tree can hold a parent with range (5, 10)
whose child has range (2, 90), both complete and neither suppressed. -/
theorem claim_C8_counterexample :
    ((buildTree v8).1)[1]? = some (ex8Frame 1) ∧
    ((buildTree v8).1)[2]? = some (ex8Frame 2) ∧
    (ex8Frame 2).parent = some 1 ∧
    (ex8Frame 1).start_offset = some 5 ∧ (ex8Frame 1).end_offset = some 10 ∧
    (ex8Frame 2).start_offset = some 2 ∧ (ex8Frame 2).end_offset = some 90 ∧
    (ex8Frame 2).invalidate_offsets = false ∧
    ¬ 5 ≤ 2 :=
  ⟨rfl, rfl, rfl, rfl, rfl, rfl, rfl, rfl, by decide⟩

def vWFp : Value := Value.mk "wp" [] (ChildrenResult.ok
  [ChildAttr.mk "q" (leafVal "wq") (some 12) (some 18) false false])

def vWF : Value := Value.mk "wr" [] (ChildrenResult.ok
  [ChildAttr.mk "p" vWFp (some 10) (some 20) false false])

def exWFFrame (k : Nat) : NodeAttributes :=
  ((buildTree vWF).1)[k]?.getD (rootFrame vWF)

theorem claim_C8_witness :
    pairWF none vWF = true ∧
    ((buildTree vWF).1)[1]? = some (exWFFrame 1) ∧
    ((buildTree vWF).1)[2]? = some (exWFFrame 2) ∧
    (exWFFrame 2).parent = some 1 ∧
    (exWFFrame 1).start_offset = some 10 ∧ (exWFFrame 1).end_offset = some 20 ∧
    (exWFFrame 2).start_offset = some 12 ∧ (exWFFrame 2).end_offset = some 18 ∧
    (10 ≤ 12 ∧ 18 ≤ 20) := by
  have hmain := claim_C8_amended vWF (by decide) 1 2 (exWFFrame 1) (exWFFrame 2)
    rfl rfl rfl 10 20 12 18 rfl rfl rfl rfl
  exact ⟨by decide, rfl, rfl, rfl, rfl, rfl, rfl, rfl, hmain⟩

/-! ### Population and refresh at the view boundary -/

/-- The view-facing state the population code mutates: the tree items added so
far (`add_tree_item` is called once per dequeued frame, inside the loop), the
status line (`set_status`) and the reported errors (`display_error`). -/
structure ViewState : Type where
  items : List NodeAttributes
  status : Option String
  errors : List String

/-- `_populate_structure_tree`: parse, then run the BFS loop over the parsed
value.  A `PyTaiException` raised by parsing or by child enumeration is caught
at the `try` boundary and reported via `display_error`; the items already
added by `add_tree_item` before the abort remain in the view (the widget
insertions are not undone).  On success the status is set to "Loaded".
Handles of one pass are counted from the pass's own base here. -/
def populate_structure_tree (view : ViewState) (parseResult : Except String Value) :
    ViewState :=
  match parseResult with
  | .error e => { view with errors := view.errors ++ [e] }
  | .ok parsed =>
    let r := buildTree parsed
    match r.2 with
    | none => { view with items := view.items ++ r.1, status := some "Loaded" }
    | some e => { view with items := view.items ++ r.1, errors := view.errors ++ [e] }

/-- `cb_refresh`: `view.reset()` discards the currently displayed tree and the
status is set, before the file is re-parsed and the tree repopulated. -/
def cb_refresh (view : ViewState) (parseResult : Except String Value) : ViewState :=
  populate_structure_tree
    { view with items := [], status := some "Refreshing..." } parseResult

/-- When a run aborts, the very frame whose child enumeration raised is the
last item added: nothing is added after the error. -/
theorem bfs_err_last : ∀ (fuel n : Nat) (q : List NodeAttributes) (e : String),
    (runBFSF fuel n q).2 = some e →
    ∃ (f : NodeAttributes) (k : Nat),
      ((runBFSF fuel n q).1)[k]? = some f ∧
      ((runBFSF fuel n q).1).length = k + 1 ∧
      childFrames f (n + k) = .error e := by
  intro fuel
  induction fuel with
  | zero =>
    intro n q e he
    cases q <;> simp [runBFSF] at he
  | succ fuel ih =>
    intro n q e he
    cases q with
    | nil => simp [runBFSF] at he
    | cons f rest =>
      cases h : childFrames f n with
      | error e0 =>
        simp only [runBFSF, h] at he ⊢
        simp at he
        subst he
        exact ⟨f, 0, by simp, by simp, by simpa using h⟩
      | ok fr =>
        simp only [runBFSF, h] at he ⊢
        rcases ih (n + 1) (rest ++ fr) e he with ⟨f', k, hk, hlen, hcf⟩
        refine ⟨f', k + 1, ?_, ?_, ?_⟩
        · simpa using hk
        · simp [hlen]
        · have : n + (k + 1) = (n + 1) + k := by omega
          rw [this]
          exact hcf

/-- C2 (amended): a decode error aborts construction immediately — the frame
whose enumeration raised is the last node added and the error is surfaced via
`display_error`, with the status never set to "Loaded" in that pass; if the
error is raised by the initial parse, no node at all is added in that pass.
However the view is not left untouched on failure: nodes added before a
mid-enumeration abort stay published, and a refresh resets (discards) the
previously published tree before re-parsing, so a failed refresh does not
preserve it. -/
theorem claim_C2_amended (view : ViewState) (e : String) (v : Value)
    (pr : Except String Value) :
    (populate_structure_tree view (Except.error e)
        = { view with errors := view.errors ++ [e] }) ∧
    ((buildTree v).2 = some e →
      populate_structure_tree view (Except.ok v)
          = { view with
              items := view.items ++ (buildTree v).1
              errors := view.errors ++ [e] } ∧
      ∃ (f : NodeAttributes) (k : Nat),
        ((buildTree v).1)[k]? = some f ∧
        ((buildTree v).1).length = k + 1 ∧
        childFrames f k = .error e) ∧
    (cb_refresh view pr
        = populate_structure_tree
            { view with items := [], status := some "Refreshing..." } pr) := by
  refine ⟨rfl, ?_, rfl⟩
  intro herr
  constructor
  · simp only [populate_structure_tree, herr]
  · have := bfs_err_last (queueWeight (initQueue v)) 0 (initQueue v) e herr
    simpa using this

def prevItem : NodeAttributes :=
  namedChildFrame 0 false (ChildAttr.mk "x" (leafVal "xv") (some 1) (some 2) false false)

/-- A view already showing a one-node tree with a selectable range. -/
def prevView : ViewState :=
  { items := [prevItem], status := some "Loaded", errors := [] }

/-- A decoded value whose root's child enumeration raises. -/
def vErr : Value := Value.mk "ev" [] (ChildrenResult.err "decode failed")

/-- C2 (counterexample): with a decoder that raises during the root's child
enumeration, the aborted pass has already published the root item — the
view's item list changes — and a refresh has already discarded the previous
tree, whose selectable range is gone afterwards; so "no partial tree is
published" and "the previously published tree is unchanged and still exposed
via select" both fail. -/
theorem claim_C2_counterexample :
    (buildTree vErr).2 = some "decode failed" ∧
    (populate_structure_tree prevView (Except.ok vErr)).items.map (fun g => g.name)
        = ["x", "root"] ∧
    prevView.items.map (fun g => g.name) = ["x"] ∧
    (populate_structure_tree prevView (Except.ok vErr)).items ≠ prevView.items ∧
    (populate_structure_tree prevView (Except.ok vErr)).errors = ["decode failed"] ∧
    (cb_refresh prevView (Except.ok vErr)).items.map (fun g => g.name) = ["root"] ∧
    (cb_refresh prevView (Except.ok vErr)).items ≠ prevView.items ∧
    select prevView.items 0 = some (1, 2) ∧
    select (cb_refresh prevView (Except.ok vErr)).items 0 = none := by
  refine ⟨rfl, rfl, rfl, ?_, rfl, rfl, ?_, rfl, rfl⟩
  · intro hcon
    have h2 := congrArg (List.map (fun g => g.name)) hcon
    revert h2
    decide
  · intro hcon
    have h2 := congrArg (List.map (fun g => g.name)) hcon
    revert h2
    decide

theorem claim_C2_witness :
    (buildTree vErr).2 = some "decode failed" ∧
    populate_structure_tree prevView (Except.ok vErr)
        = { prevView with
            items := prevView.items ++ (buildTree vErr).1
            errors := prevView.errors ++ ["decode failed"] } ∧
    populate_structure_tree prevView (Except.error "boom")
        = { prevView with errors := prevView.errors ++ ["boom"] } ∧
    cb_refresh prevView (Except.ok vErr)
        = populate_structure_tree
            { prevView with items := [], status := some "Refreshing..." }
            (Except.ok vErr) := by
  have h := claim_C2_amended prevView "decode failed" vErr (Except.ok vErr)
  have h2 := claim_C2_amended prevView "boom" vErr (Except.ok vErr)
  exact ⟨rfl, (h.2.1 rfl).1, h2.1, h.2.2⟩

end Pytai
